import Mathlib

set_option maxHeartbeats 1000000
set_option synthInstance.maxHeartbeats 2000000
set_option synthInstance.maxSize 2048
set_option maxRecDepth 100000

/-!
A shallow embedding of the `luhn3` crate (`src/lib.rs`) and proofs about it.

Bytes of the Rust `&[u8]` slices are modelled as `Nat` (with `< 256`
hypotheses where the bit-level code depends on the byte range); the `usize`
accumulators are modelled as `Nat`.  Rust iteration from the last byte to the
first is modelled as structural recursion over the reversed list.
-/

/-- The digit correction table `LUT` of `fold10` (also `LUT_DIGIT` of `fold36`). -/
def LUT10 : List Nat := [0, 1, 2, 3, 4, 6, 7, 8, 9, 0]

/-- Worker loop of `fold10` (src/lib.rs lines 69-86): the source iterates the
slice from the last byte to the first, so this recursion runs over the
*reversed* byte list, carrying the accumulator `acc` and the toggling flag
`correct`.  A byte outside `b'0'..=b'9'` aborts with `none`. -/
def fold10Go (correct : Bool) (acc : Nat) : List Nat → Option Nat
  | [] => some acc
  | c :: rest =>
    if 48 ≤ c ∧ c ≤ 57 then
      fold10Go (!correct) (acc + (c - 48) + (if correct then LUT10.getD (c - 48) 0 else 0)) rest
    else none

/-- `fold10(correct, raw)` from src/lib.rs. -/
def fold10 (correct : Bool) (raw : List Nat) : Option Nat :=
  fold10Go correct 0 raw.reverse

/-- `LUT_LETTER_T` of `fold36`. -/
def LUT_LETTER_T : List Nat :=
  [1, 3, 5, 7, 9, 2, 4, 6, 8, 10, 2, 4, 6, 8, 10, 3, 5, 7, 9, 11, 3, 5, 7, 9, 11, 4]

/-- `LUT_LETTER_F` of `fold36`. -/
def LUT_LETTER_F : List Nat :=
  [2, 3, 4, 5, 6, 7, 8, 9, 10, 11, 4, 5, 6, 7, 8, 9, 10, 11, 12, 13, 6, 7, 8, 9, 10, 11]

/-- Worker loop of `fold36` (src/lib.rs lines 156-188), over the reversed byte
list.  Digits toggle the `correct` flag; letters add a table entry selected by
the current flag and leave the flag unchanged (exactly as in the source, whose
letter branch contains no flag update). -/
def fold36Go (correct : Bool) (acc : Nat) : List Nat → Option Nat
  | [] => some acc
  | c :: rest =>
    if 48 ≤ c ∧ c ≤ 57 then
      fold36Go (!correct) (acc + (c - 48) + (if correct then LUT10.getD (c - 48) 0 else 0)) rest
    else if 65 ≤ c ∧ c ≤ 90 then
      fold36Go correct
        (acc + (if correct then LUT_LETTER_T.getD (c - 65) 0 else LUT_LETTER_F.getD (c - 65) 0))
        rest
    else none

/-- `fold36(correct, raw)` from src/lib.rs. -/
def fold36 (correct : Bool) (raw : List Nat) : Option Nat :=
  fold36Go correct 0 raw.reverse

namespace decimal

/-- `decimal::valid` (src/lib.rs lines 231-236). -/
def valid (ascii : List Nat) : Bool :=
  match fold10 false ascii with
  | some v => v % 10 == 0
  | none => false

/-- `decimal::checksum` (src/lib.rs lines 273-276). -/
def checksum (ascii : List Nat) : Option Nat :=
  (fold10 true ascii).map fun sum => 48 + (10 - sum % 10) % 10

end decimal

namespace alphanum

/-- `alphanum::valid` (src/lib.rs lines 321-326). -/
def valid (ascii : List Nat) : Bool :=
  match fold36 false ascii with
  | some v => v % 10 == 0
  | none => false

/-- `alphanum::checksum` (src/lib.rs lines 349-352). -/
def checksum (ascii : List Nat) : Option Nat :=
  (fold36 true ascii).map fun sum => 48 + (10 - sum % 10) % 10

end alphanum

/-- The `Blob` accumulator slot of the `Mixer` (src/lib.rs lines 63-67). -/
structure Blob where
  sum : Nat
  five_or_higher : Nat
deriving DecidableEq

/-- `Mixer(Blob, Blob)` (src/lib.rs line 31); `s0`/`s1` stand for the Rust
tuple fields `.0`/`.1`. -/
structure Mixer where
  s0 : Blob
  s1 : Blob
deriving DecidableEq

/-- `Mixer::default()`: both slots zeroed. -/
def Mixer.default : Mixer := ⟨⟨0, 0⟩, ⟨0, 0⟩⟩

/-- `Mixer::push` (src/lib.rs lines 44-51): update slot `.0`, then swap the
slots. -/
def Mixer.push (m : Mixer) (digit : Nat) : Mixer :=
  ⟨m.s1, ⟨m.s0.sum + digit, m.s0.five_or_higher + (if 5 ≤ digit then 1 else 0)⟩⟩

/-- `Mixer::valid` (src/lib.rs lines 53-55). -/
def Mixer.valid (m : Mixer) : Bool :=
  (m.s0.sum * 2 - m.s0.five_or_higher * 9 + m.s1.sum) % 10 == 0

/-- `Mixer::checksum` (src/lib.rs lines 57-60). -/
def Mixer.checksum (m : Mixer) : Nat :=
  48 + (10 - (m.s1.sum * 2 - m.s1.five_or_higher * 9 + m.s0.sum) % 10) % 10

/-- Pushing a digit sequence, in order, into a default-constructed `Mixer`. -/
def Mixer.run (ds : List Nat) : Mixer := ds.foldl Mixer.push Mixer.default

/-- **C9.** Empty-stream behavior of the Mixer: a default-constructed `Mixer`
on which `push` was never called returns `valid() = true` and
`checksum() = b'0'` (byte 48). -/
theorem c9_mixer_empty : Mixer.valid Mixer.default = true ∧ Mixer.checksum Mixer.default = 48 := by
  decide

/-! ## Characterization of the scalar folds -/

/-- Accumulator shift for `fold10Go`. -/
theorem fold10Go_acc (l : List Nat) : ∀ (t : Bool) (acc : Nat),
    fold10Go t acc l = (fold10Go t 0 l).map (acc + ·) := by
  induction l with
  | nil => intro t acc; simp [fold10Go]
  | cons c rest ih =>
    intro t acc
    simp only [fold10Go]
    by_cases h : 48 ≤ c ∧ c ≤ 57
    · rw [if_pos h, if_pos h,
        ih (!t) (acc + (c - 48) + if t then LUT10.getD (c - 48) 0 else 0),
        ih (!t) (0 + (c - 48) + if t then LUT10.getD (c - 48) 0 else 0)]
      cases fold10Go (!t) 0 rest with
      | none => rfl
      | some v =>
        simp only [Option.map_some']
        congr 1
        omega
    · rw [if_neg h, if_neg h]
      rfl

/-- The weighted sum `fold10` accumulates over an all-digit reversed list. -/
def luhnR (t : Bool) : List Nat → Nat
  | [] => 0
  | c :: rest => (c - 48) + (if t then LUT10.getD (c - 48) 0 else 0) + luhnR (!t) rest

theorem fold10Go_eq_some (l : List Nat) (h : ∀ c ∈ l, 48 ≤ c ∧ c ≤ 57) :
    ∀ t : Bool, fold10Go t 0 l = some (luhnR t l) := by
  induction l with
  | nil => intro t; rfl
  | cons c rest ih =>
    intro t
    have hc : 48 ≤ c ∧ c ≤ 57 := h c (List.mem_cons_self c rest)
    simp only [fold10Go, if_pos hc, luhnR]
    rw [fold10Go_acc, ih (fun x hx => h x (List.mem_cons_of_mem c hx))]
    simp only [Option.map_some']
    congr 1
    omega

theorem fold10Go_eq_none (l : List Nat) (h : ∃ c ∈ l, ¬(48 ≤ c ∧ c ≤ 57)) :
    ∀ t : Bool, fold10Go t 0 l = none := by
  induction l with
  | nil => exact absurd h (by simp)
  | cons c rest ih =>
    intro t
    simp only [fold10Go]
    by_cases hc : 48 ≤ c ∧ c ≤ 57
    · rw [if_pos hc, fold10Go_acc]
      rcases h with ⟨b, hb, hnb⟩
      rcases List.mem_cons.mp hb with rfl | hbrest
      · exact absurd hc hnb
      · rw [ih ⟨b, hbrest, hnb⟩]
        rfl
    · rw [if_neg hc]

theorem fold10_none_iff (t : Bool) (s : List Nat) :
    fold10 t s = none ↔ ∃ b ∈ s, ¬(48 ≤ b ∧ b ≤ 57) := by
  unfold fold10
  constructor
  · intro h
    by_contra hcon
    push_neg at hcon
    rw [fold10Go_eq_some s.reverse (fun c hcm => hcon c (List.mem_reverse.mp hcm))] at h
    exact Option.some_ne_none _ h
  · rintro ⟨b, hb, hnb⟩
    exact fold10Go_eq_none _ ⟨b, List.mem_reverse.mpr hb, hnb⟩ t

theorem fold10_eq_some (s : List Nat) (h : ∀ c ∈ s, 48 ≤ c ∧ c ≤ 57) (t : Bool) :
    fold10 t s = some (luhnR t s.reverse) :=
  fold10Go_eq_some s.reverse (fun c hcm => h c (List.mem_reverse.mp hcm)) t

/-- Accumulator shift for `fold36Go`. -/
theorem fold36Go_acc (l : List Nat) : ∀ (t : Bool) (acc : Nat),
    fold36Go t acc l = (fold36Go t 0 l).map (acc + ·) := by
  induction l with
  | nil => intro t acc; simp [fold36Go]
  | cons c rest ih =>
    intro t acc
    simp only [fold36Go]
    by_cases h : 48 ≤ c ∧ c ≤ 57
    · rw [if_pos h, if_pos h,
        ih (!t) (acc + (c - 48) + if t then LUT10.getD (c - 48) 0 else 0),
        ih (!t) (0 + (c - 48) + if t then LUT10.getD (c - 48) 0 else 0)]
      cases fold36Go (!t) 0 rest with
      | none => rfl
      | some v =>
        simp only [Option.map_some']
        congr 1
        omega
    · rw [if_neg h, if_neg h]
      by_cases h2 : 65 ≤ c ∧ c ≤ 90
      · rw [if_pos h2, if_pos h2,
          ih t (acc + if t then LUT_LETTER_T.getD (c - 65) 0 else LUT_LETTER_F.getD (c - 65) 0),
          ih t (0 + if t then LUT_LETTER_T.getD (c - 65) 0 else LUT_LETTER_F.getD (c - 65) 0)]
        cases fold36Go t 0 rest with
        | none => rfl
        | some v =>
          simp only [Option.map_some']
          congr 1
          omega
      · rw [if_neg h2, if_neg h2]
        rfl

theorem fold36Go_eq_none (l : List Nat)
    (h : ∃ c ∈ l, ¬(48 ≤ c ∧ c ≤ 57) ∧ ¬(65 ≤ c ∧ c ≤ 90)) :
    ∀ t : Bool, fold36Go t 0 l = none := by
  induction l with
  | nil => exact absurd h (by simp)
  | cons c rest ih =>
    intro t
    simp only [fold36Go]
    rcases h with ⟨b, hb, hnb⟩
    by_cases hc : 48 ≤ c ∧ c ≤ 57
    · rw [if_pos hc, fold36Go_acc]
      rcases List.mem_cons.mp hb with rfl | hbrest
      · exact absurd hc hnb.1
      · rw [ih ⟨b, hbrest, hnb⟩]
        rfl
    · rw [if_neg hc]
      by_cases hl : 65 ≤ c ∧ c ≤ 90
      · rw [if_pos hl, fold36Go_acc]
        rcases List.mem_cons.mp hb with rfl | hbrest
        · exact absurd hl hnb.2
        · rw [ih ⟨b, hbrest, hnb⟩]
          rfl
      · rw [if_neg hl]

theorem fold36Go_ne_none (l : List Nat)
    (h : ∀ c ∈ l, (48 ≤ c ∧ c ≤ 57) ∨ (65 ≤ c ∧ c ≤ 90)) :
    ∀ (t : Bool) (acc : Nat), ∃ v, fold36Go t acc l = some v := by
  induction l with
  | nil => intro t acc; exact ⟨acc, rfl⟩
  | cons c rest ih =>
    intro t acc
    have hrest : ∀ x ∈ rest, (48 ≤ x ∧ x ≤ 57) ∨ (65 ≤ x ∧ x ≤ 90) :=
      fun x hx => h x (List.mem_cons_of_mem c hx)
    simp only [fold36Go]
    rcases h c (List.mem_cons_self c rest) with hc | hc
    · rw [if_pos hc]
      exact ih hrest _ _
    · have hnd : ¬(48 ≤ c ∧ c ≤ 57) := by omega
      rw [if_neg hnd, if_pos hc]
      exact ih hrest _ _

theorem fold36_none_iff (t : Bool) (s : List Nat) :
    fold36 t s = none ↔ ∃ b ∈ s, ¬(48 ≤ b ∧ b ≤ 57) ∧ ¬(65 ≤ b ∧ b ≤ 90) := by
  unfold fold36
  constructor
  · intro h
    by_cases hall : ∀ c ∈ s.reverse, (48 ≤ c ∧ c ≤ 57) ∨ (65 ≤ c ∧ c ≤ 90)
    · rcases fold36Go_ne_none s.reverse hall t 0 with ⟨v, hv⟩
      rw [hv] at h
      exact absurd h (Option.some_ne_none v)
    · push_neg at hall
      rcases hall with ⟨b, hb, hnb⟩
      exact ⟨b, List.mem_reverse.mp hb, by omega, by omega⟩
  · rintro ⟨b, hb, hnb⟩
    exact fold36Go_eq_none _ ⟨b, List.mem_reverse.mpr hb, hnb⟩ t

/-! ## C4, C5, C3: error handling, checksum shape, round trip -/

/-- **C4.** Error handling is exhaustive and fail-fast with a single failure
signal: `decimal::checksum` returns `None` iff some byte is outside
`b'0'..=b'9'`, `decimal::valid` returns `false` whenever some byte is outside
that range, and analogously for `alphanum` with the alphabet `b'0'..=b'9'`
plus `b'A'..=b'Z'`.  (The embedding is total, so no input panics.) -/
theorem c4_fail_fast (s : List Nat) :
    (decimal.checksum s = none ↔ ∃ b ∈ s, ¬(48 ≤ b ∧ b ≤ 57)) ∧
    ((∃ b ∈ s, ¬(48 ≤ b ∧ b ≤ 57)) → decimal.valid s = false) ∧
    (alphanum.checksum s = none ↔ ∃ b ∈ s, ¬(48 ≤ b ∧ b ≤ 57) ∧ ¬(65 ≤ b ∧ b ≤ 90)) ∧
    ((∃ b ∈ s, ¬(48 ≤ b ∧ b ≤ 57) ∧ ¬(65 ≤ b ∧ b ≤ 90)) → alphanum.valid s = false) := by
  refine ⟨?_, ?_, ?_, ?_⟩
  · rw [← fold10_none_iff true s]
    unfold decimal.checksum
    cases fold10 true s <;> simp
  · intro hex
    have h10 : fold10 false s = none := (fold10_none_iff false s).mpr hex
    unfold decimal.valid
    rw [h10]
  · rw [← fold36_none_iff true s]
    unfold alphanum.checksum
    cases fold36 true s <;> simp
  · intro hex
    have h36 : fold36 false s = none := (fold36_none_iff false s).mpr hex
    unfold alphanum.valid
    rw [h36]

/-- **C5.** Whenever `decimal::checksum` or `alphanum::checksum` returns
`Some c`, then `c = b'0' + (10 - S mod 10) mod 10` where `S` is the weighted
sum computed by the corresponding fold with `transform_on_first = true` over
the whole input, and in particular `c` is a byte in `b'0'..=b'9'`. -/
theorem c5_checksum_shape (s : List Nat) (c : Nat) :
    (decimal.checksum s = some c →
      (∃ S, fold10 true s = some S ∧ c = 48 + (10 - S % 10) % 10) ∧ 48 ≤ c ∧ c ≤ 57) ∧
    (alphanum.checksum s = some c →
      (∃ S, fold36 true s = some S ∧ c = 48 + (10 - S % 10) % 10) ∧ 48 ≤ c ∧ c ≤ 57) := by
  constructor
  · intro h
    unfold decimal.checksum at h
    rcases Option.map_eq_some'.mp h with ⟨S, hS, hc⟩
    have hlt : (10 - S % 10) % 10 < 10 := Nat.mod_lt _ (by norm_num)
    exact ⟨⟨S, hS, hc.symm⟩, by omega, by omega⟩
  · intro h
    unfold alphanum.checksum at h
    rcases Option.map_eq_some'.mp h with ⟨S, hS, hc⟩
    have hlt : (10 - S % 10) % 10 < 10 := Nat.mod_lt _ (by norm_num)
    exact ⟨⟨S, hS, hc.symm⟩, by omega, by omega⟩

/-- Witness for C5 at the concrete input `"4"` (byte 52), whose check digit
is `'2'` (byte 50) in both alphabets. -/
theorem c5_checksum_shape_witness :
    ((∃ S, fold10 true [52] = some S ∧ 50 = 48 + (10 - S % 10) % 10) ∧ 48 ≤ 50 ∧ 50 ≤ 57) ∧
    ((∃ S, fold36 true [52] = some S ∧ 50 = 48 + (10 - S % 10) % 10) ∧ 48 ≤ 50 ∧ 50 ≤ 57) :=
  ⟨(c5_checksum_shape [52] 50).1 (by decide), (c5_checksum_shape [52] 50).2 (by decide)⟩

/-- **C3.** Round-trip self-consistency: if `checksum body = Some c` then
appending `c` to `body` makes `valid` return `true`, for both the decimal and
the alphanumeric operations. -/
theorem c3_round_trip (body : List Nat) (c : Nat) :
    (decimal.checksum body = some c → decimal.valid (body ++ [c]) = true) ∧
    (alphanum.checksum body = some c → alphanum.valid (body ++ [c]) = true) := by
  constructor
  · intro h
    unfold decimal.checksum at h
    rcases Option.map_eq_some'.mp h with ⟨S, hS, hc⟩
    have hdig : 48 ≤ c ∧ c ≤ 57 := by
      have hlt : (10 - S % 10) % 10 < 10 := Nat.mod_lt _ (by norm_num)
      omega
    have hrev : (body ++ [c]).reverse = c :: body.reverse := by simp
    have hstep : fold10 false (body ++ [c]) = (fold10 true body).map ((c - 48) + ·) := by
      unfold fold10
      rw [hrev]
      simp only [fold10Go, if_pos hdig, Bool.not_false, Bool.false_eq_true, if_false]
      rw [fold10Go_acc]
      congr 1
      funext x
      omega
    unfold decimal.valid
    rw [hstep, hS]
    simp only [Option.map_some']
    have hmod : (c - 48 + S) % 10 = 0 := by omega
    simp [hmod]
  · intro h
    unfold alphanum.checksum at h
    rcases Option.map_eq_some'.mp h with ⟨S, hS, hc⟩
    have hdig : 48 ≤ c ∧ c ≤ 57 := by
      have hlt : (10 - S % 10) % 10 < 10 := Nat.mod_lt _ (by norm_num)
      omega
    have hrev : (body ++ [c]).reverse = c :: body.reverse := by simp
    have hstep : fold36 false (body ++ [c]) = (fold36 true body).map ((c - 48) + ·) := by
      unfold fold36
      rw [hrev]
      simp only [fold36Go, if_pos hdig, Bool.not_false, Bool.false_eq_true, if_false]
      rw [fold36Go_acc]
      congr 1
      funext x
      omega
    unfold alphanum.valid
    rw [hstep, hS]
    simp only [Option.map_some']
    have hmod : (c - 48 + S) % 10 = 0 := by omega
    simp [hmod]

/-- Witness for C3: the body `"4"` (byte 52) has check digit `'2'` (byte 50)
and `"42"` validates in both alphabets. -/
theorem c3_round_trip_witness :
    decimal.valid ([52] ++ [50]) = true ∧ alphanum.valid ([52] ++ [50]) = true :=
  ⟨(c3_round_trip [52] 50).1 (by decide), (c3_round_trip [52] 50).2 (by decide)⟩

/-! ## C8: letter parity behavior of `fold36` -/

/-- Modelled from the spec: §4.2 states that "each letter always consumes
exactly one toggle of the parity flag (not two)", i.e. that the letter branch
would flip `correct` exactly once, like a single decimal digit, making the
byte to the left of a letter be processed with the opposite parity.  This
variant differs from the source's `fold36Go` only in passing `!correct` on in
the letter branch; the source passes `correct` on unchanged. -/
def fold36OneToggleGo (correct : Bool) (acc : Nat) : List Nat → Option Nat
  | [] => some acc
  | c :: rest =>
    if 48 ≤ c ∧ c ≤ 57 then
      fold36OneToggleGo (!correct) (acc + (c - 48) + (if correct then LUT10.getD (c - 48) 0 else 0))
        rest
    else if 65 ≤ c ∧ c ≤ 90 then
      fold36OneToggleGo (!correct)
        (acc + (if correct then LUT_LETTER_T.getD (c - 65) 0 else LUT_LETTER_F.getD (c - 65) 0))
        rest
    else none

/-- **C8, counterexample.** On the input `"1A"` (bytes `[49, 65]`, processed
right to left starting with `correct = false`), the source's `fold36` yields
3: the letter `'A'` contributes `LUT_LETTER_F[0] = 2` and the `'1'` to its
left is processed with the *same* flag (plain), contributing 1.  The
one-toggle-per-letter fold the claim describes would process the `'1'` with
the opposite (transform) parity and yield 4.  So the claim's parity statement
is false for the code. -/
theorem c8_letter_parity_counterexample :
    fold36 false [49, 65] = some 3 ∧
    fold36OneToggleGo false 0 (List.reverse [49, 65]) = some 4 ∧
    fold36 false [49, 65] ≠ fold36OneToggleGo false 0 (List.reverse [49, 65]) := by
  decide

/-- **C8, amended.** In the alphanumeric fold, processing a letter byte
(`b'A'..=b'Z'`) leaves the parity/transform flag unchanged (the letter's two
virtual digits consume two toggles, a net zero flip), so the byte immediately
to the left of a letter is processed with the *same* parity flag as the
letter itself. -/
theorem c8_letter_parity_amended (t : Bool) (c : Nat) (rest : List Nat)
    (h1 : 65 ≤ c) (h2 : c ≤ 90) :
    fold36Go t 0 (c :: rest) =
      (fold36Go t 0 rest).map
        ((if t then LUT_LETTER_T.getD (c - 65) 0 else LUT_LETTER_F.getD (c - 65) 0) + ·) := by
  have hnd : ¬(48 ≤ c ∧ c ≤ 57) := by omega
  simp only [fold36Go, if_neg hnd, if_pos (And.intro h1 h2)]
  rw [fold36Go_acc]
  congr 1
  funext x
  omega

/-- Witness for the amended C8 at `c = 'A'`, `rest = "1"` reversed, `t = false`. -/
theorem c8_letter_parity_amended_witness :
    65 ≤ 65 ∧ (65 : Nat) ≤ 90 ∧
    fold36Go false 0 (65 :: [49]) =
      (fold36Go false 0 [49]).map
        ((if false then LUT_LETTER_T.getD (65 - 65) 0 else LUT_LETTER_F.getD (65 - 65) 0) + ·) :=
  ⟨by decide, by decide, c8_letter_parity_amended false 65 [49] (by decide) (by decide)⟩

/-! ## C10: no underflow in the Mixer -/

/-- Each counted digit contributes at least 5 to the slot sum: the invariant
`5 * five_or_higher ≤ sum` holds for both slots of any `Mixer` reachable by
`push`es, with no assumption on the pushed values. -/
theorem mixer_foldl_inv (ds : List Nat) : ∀ m : Mixer,
    5 * m.s0.five_or_higher ≤ m.s0.sum → 5 * m.s1.five_or_higher ≤ m.s1.sum →
    5 * (ds.foldl Mixer.push m).s0.five_or_higher ≤ (ds.foldl Mixer.push m).s0.sum ∧
    5 * (ds.foldl Mixer.push m).s1.five_or_higher ≤ (ds.foldl Mixer.push m).s1.sum := by
  induction ds with
  | nil => intro m h0 h1; exact ⟨h0, h1⟩
  | cons d rest ih =>
    intro m h0 h1
    refine ih (m.push d) h1 ?_
    unfold Mixer.push
    dsimp only
    by_cases hd : 5 ≤ d
    · rw [if_pos hd]; omega
    · rw [if_neg hd]; omega

/-- **C10.** Underflow-safety invariant: after any sequence of `Mixer::push`
calls with each pushed digit in `0..=9`, every slot of the `Mixer` satisfies
`2 * sum ≥ 9 * five_or_higher`, so the `usize` subtractions
`sum * 2 - five_or_higher * 9` in `valid()` and `checksum()` never
underflow. -/
theorem c10_mixer_no_underflow (ds : List Nat) (h : ∀ d ∈ ds, d ≤ 9) :
    (Mixer.run ds).s0.five_or_higher * 9 ≤ (Mixer.run ds).s0.sum * 2 ∧
    (Mixer.run ds).s1.five_or_higher * 9 ≤ (Mixer.run ds).s1.sum * 2 := by
  have hinv := mixer_foldl_inv ds Mixer.default (by simp [Mixer.default]) (by simp [Mixer.default])
  unfold Mixer.run
  omega

/-- Witness for C10 at the concrete push sequence `[5, 7, 3]`. -/
theorem c10_mixer_no_underflow_witness :
    (∀ d ∈ [5, 7, 3], d ≤ 9) ∧
    (Mixer.run [5, 7, 3]).s0.five_or_higher * 9 ≤ (Mixer.run [5, 7, 3]).s0.sum * 2 ∧
    (Mixer.run [5, 7, 3]).s1.five_or_higher * 9 ≤ (Mixer.run [5, 7, 3]).s1.sum * 2 :=
  ⟨by decide, c10_mixer_no_underflow [5, 7, 3] (by decide)⟩

/-! ## C2: the streaming Mixer refines the scalar fold -/

/-- Sum of the digits sitting at alternating positions of a reversed digit
stream: the head is counted when `b = true`. -/
def altSum (b : Bool) : List Nat → Nat
  | [] => 0
  | d :: rest => (if b then d else 0) + altSum (!b) rest

/-- Count of digits `≥ 5` at alternating positions of a reversed digit
stream (the head is counted when `b = true`). -/
def altCnt (b : Bool) : List Nat → Nat
  | [] => 0
  | d :: rest => (if b then (if 5 ≤ d then 1 else 0) else 0) + altCnt (!b) rest

/-- Count of digits in `5..=8` at alternating positions of a reversed digit
stream (the head is counted when `b = true`). -/
def altK (b : Bool) : List Nat → Nat
  | [] => 0
  | d :: rest => (if b then (if 5 ≤ d ∧ d ≤ 8 then 1 else 0) else 0) + altK (!b) rest

/-- After pushing `ds` in order, slot `.1` of the Mixer holds the digits at
even positions from the right and slot `.0` those at odd positions. -/
theorem mixer_run_eq (ds : List Nat) :
    Mixer.run ds =
      ⟨⟨altSum false ds.reverse, altCnt false ds.reverse⟩,
        ⟨altSum true ds.reverse, altCnt true ds.reverse⟩⟩ := by
  induction ds using List.reverseRecOn with
  | nil => rfl
  | append_singleton ds d ih =>
    have hstep : Mixer.run (ds ++ [d]) = Mixer.push (Mixer.run ds) d := by
      simp [Mixer.run, List.foldl_append]
    have hrev : (ds ++ [d]).reverse = d :: ds.reverse := by simp
    rw [hstep, ih, hrev]
    by_cases h5 : 5 ≤ d <;>
      simp [Mixer.push, altSum, altCnt, h5, Nat.add_comm]

/-- The slot invariant `5 * five_or_higher ≤ sum`, phrased on the alternating
accumulators. -/
theorem altCnt_le (rds : List Nat) : ∀ b : Bool, 5 * altCnt b rds ≤ altSum b rds := by
  induction rds with
  | nil => intro b; simp [altCnt, altSum]
  | cons d rest ih =>
    intro b
    cases b
    · have := ih true
      simpa [altCnt, altSum] using this
    · have := ih false
      simp only [altCnt, altSum, if_true, Bool.not_true]
      by_cases h5 : 5 ≤ d
      · rw [if_pos h5]; omega
      · rw [if_neg h5]; omega

/-- Per-digit bridge between the `fold10` table contribution and the exact
"double, subtract 9 if `≥ 5`" value: `d + LUT[d] + 9·[d≥5] = 2d + 10·[5≤d≤8]`. -/
theorem digit_ident : ∀ d : Nat, d < 10 →
    d + LUT10.getD d 0 + 9 * (if 5 ≤ d then 1 else 0) =
      2 * d + 10 * (if 5 ≤ d ∧ d ≤ 8 then 1 else 0) := by
  decide

/-- The scalar weighted sum over an all-digit reversed stream, written with
the alternating accumulators: `luhnR t + 9·cnt = 2·sum_t + sum_(!t) + 10·K`. -/
theorem luhnR_eq_alt (rds : List Nat) : ∀ t : Bool, (∀ d ∈ rds, d ≤ 9) →
    luhnR t (rds.map (fun d => 48 + d)) + 9 * altCnt t rds =
      2 * altSum t rds + altSum (!t) rds + 10 * altK t rds := by
  induction rds with
  | nil => intro t _; cases t <;> simp [luhnR, altSum, altCnt, altK]
  | cons d rest ih =>
    intro t h
    have hd : d ≤ 9 := h d (List.mem_cons_self d rest)
    have hident := digit_ident d (by omega)
    have iht := ih (!t) (fun x hx => h x (List.mem_cons_of_mem d hx))
    simp only [List.map_cons, luhnR, altSum, altCnt, altK, Nat.add_sub_cancel_left] at *
    cases t <;>
      by_cases h5 : 5 ≤ d <;>
        by_cases h8 : d ≤ 8 <;>
          simp only [h5, h8, if_true, if_false, and_true, true_and, and_false, false_and,
            and_self, eq_self_iff_true, Bool.not_false, Bool.not_true, Bool.false_eq_true,
            Bool.true_eq_false] at hident iht ⊢ <;>
          omega

/-- **C2.** For every finite sequence of digit values `d ∈ 0..=9`, pushing
them in order into a default-constructed `Mixer` and then calling `valid()`
yields the same boolean as `decimal::valid` applied to the ASCII bytes
`b'0' + d_i`, and `checksum()` yields exactly the byte `c` for which
`decimal::checksum` of those ASCII bytes returns `Some c`. -/
theorem c2_mixer_scalar_equiv (ds : List Nat) (h : ∀ d ∈ ds, d ≤ 9) :
    Mixer.valid (Mixer.run ds) = decimal.valid (ds.map (fun d => 48 + d)) ∧
    decimal.checksum (ds.map (fun d => 48 + d)) = some (Mixer.checksum (Mixer.run ds)) := by
  have hbytes : ∀ c ∈ ds.map (fun d => 48 + d), 48 ≤ c ∧ c ≤ 57 := by
    intro c hcm
    rcases List.mem_map.mp hcm with ⟨d, hdm, rfl⟩
    have := h d hdm
    omega
  have hrds : ∀ d ∈ ds.reverse, d ≤ 9 := fun d hd => h d (List.mem_reverse.mp hd)
  have hmaprev : (ds.map (fun d => 48 + d)).reverse = ds.reverse.map (fun d => 48 + d) := by
    simp
  constructor
  · rw [decimal.valid, fold10_eq_some _ hbytes false, mixer_run_eq, Mixer.valid]
    dsimp only
    rw [hmaprev]
    have hkey := luhnR_eq_alt ds.reverse false hrds
    have hle := altCnt_le ds.reverse false
    simp only [Bool.not_false] at hkey
    have hmod : (altSum false ds.reverse * 2 - altCnt false ds.reverse * 9 +
        altSum true ds.reverse) % 10 =
        luhnR false (ds.reverse.map (fun d => 48 + d)) % 10 := by omega
    rw [hmod]
  · rw [decimal.checksum, fold10_eq_some _ hbytes true, mixer_run_eq, Mixer.checksum]
    dsimp only
    rw [hmaprev]
    have hkey := luhnR_eq_alt ds.reverse true hrds
    have hle := altCnt_le ds.reverse true
    simp only [Bool.not_true] at hkey
    have hmod : (altSum true ds.reverse * 2 - altCnt true ds.reverse * 9 +
        altSum false ds.reverse) % 10 =
        luhnR true (ds.reverse.map (fun d => 48 + d)) % 10 := by omega
    rw [Option.map_some', hmod]

/-- Witness for C2 at the concrete digit stream `[4, 1, 2]`. -/
theorem c2_mixer_scalar_equiv_witness :
    (∀ d ∈ [4, 1, 2], d ≤ 9) ∧
    (Mixer.valid (Mixer.run [4, 1, 2]) = decimal.valid ([4, 1, 2].map (fun d => 48 + d)) ∧
      decimal.checksum ([4, 1, 2].map (fun d => 48 + d)) =
        some (Mixer.checksum (Mixer.run [4, 1, 2]))) :=
  ⟨by decide, c2_mixer_scalar_equiv [4, 1, 2] (by decide)⟩

/-! ## C6, C7: error detection, via position-indexed sums in `ZMod 10` -/

/-- The `fold10` contribution of byte `c` under transform flag `t`, in
`ZMod 10`. -/
def wZ (t : Bool) (c : Nat) : ZMod 10 :=
  (((c - 48) + (if t then LUT10.getD (c - 48) 0 else 0) : Nat) : ZMod 10)

/-- The weighted sum of a byte sequence indexed from the left: the byte at
index `i` of `s` sits at position `s.length - 1 - i` from the right. -/
def sumZ (t : Bool) (s : List Nat) : ZMod 10 :=
  ∑ i ∈ Finset.range s.length,
    wZ (xor t (decide ((s.length - 1 - i) % 2 = 1))) (s.getD i 0)

theorem getD_reverse (s : List Nat) (p : Nat) (hp : p < s.length) :
    s.reverse.getD p 0 = s.getD (s.length - 1 - p) 0 := by
  rw [List.getD_eq_getElem?_getD, List.getElem?_reverse hp, ← List.getD_eq_getElem?_getD]

theorem xor_succ_parity (t : Bool) (p : Nat) :
    xor t (decide ((p + 1) % 2 = 1)) = xor (!t) (decide (p % 2 = 1)) := by
  rcases Nat.mod_two_eq_zero_or_one p with hp | hp
  · have h1 : (p + 1) % 2 = 1 := by omega
    simp [hp, h1]
  · have h1 : (p + 1) % 2 = 0 := by omega
    simp [hp, h1]

/-- `luhnR` cast to `ZMod 10`, as a position-indexed sum over the reversed
list. -/
theorem luhnR_cast (l : List Nat) : ∀ t : Bool,
    ((luhnR t l : Nat) : ZMod 10) =
      ∑ p ∈ Finset.range l.length, wZ (xor t (decide (p % 2 = 1))) (l.getD p 0) := by
  induction l with
  | nil => intro t; simp [luhnR]
  | cons c rest ih =>
    intro t
    rw [luhnR, Nat.cast_add, ih (!t), List.length_cons, Finset.sum_range_succ', add_comm]
    congr 1
    · apply Finset.sum_congr rfl
      intro p _
      rw [List.getD_cons_succ, xor_succ_parity]
    · simp [wZ]

/-- `luhnR` over the reversal of `s`, cast to `ZMod 10`, is the left-indexed
weighted sum of `s`. -/
theorem luhnR_reverse_cast (s : List Nat) (t : Bool) :
    ((luhnR t s.reverse : Nat) : ZMod 10) = sumZ t s := by
  rw [luhnR_cast s.reverse t, List.length_reverse]
  have hstep : ∑ p ∈ Finset.range s.length, wZ (xor t (decide (p % 2 = 1))) (s.reverse.getD p 0)
      = ∑ p ∈ Finset.range s.length,
          wZ (xor t (decide ((s.length - 1 - (s.length - 1 - p)) % 2 = 1)))
            (s.getD (s.length - 1 - p) 0) := by
    apply Finset.sum_congr rfl
    intro p hp
    have hp' : p < s.length := Finset.mem_range.mp hp
    have hpp : s.length - 1 - (s.length - 1 - p) = p := by omega
    rw [getD_reverse s p hp', hpp]
  rw [hstep, sumZ]
  exact Finset.sum_range_reflect
    (fun p => wZ (xor t (decide ((s.length - 1 - p) % 2 = 1))) (s.getD p 0)) s.length

/-- Updating one byte changes the left-indexed weighted sum by the difference
of the two contributions at that position. -/
theorem sumZ_set (t : Bool) (s : List Nat) (i v : Nat) (hi : i < s.length) :
    sumZ t (s.set i v) =
      sumZ t s - wZ (xor t (decide ((s.length - 1 - i) % 2 = 1))) (s.getD i 0)
        + wZ (xor t (decide ((s.length - 1 - i) % 2 = 1))) v := by
  unfold sumZ
  rw [List.length_set]
  have hmem : i ∈ Finset.range s.length := Finset.mem_range.mpr hi
  have e1 := (Finset.add_sum_erase (Finset.range s.length)
      (fun j => wZ (xor t (decide ((s.length - 1 - j) % 2 = 1))) ((s.set i v).getD j 0)) hmem).symm
  have e2 := (Finset.add_sum_erase (Finset.range s.length)
      (fun j => wZ (xor t (decide ((s.length - 1 - j) % 2 = 1))) (s.getD j 0)) hmem).symm
  rw [e1, e2]
  have herase : ∑ j ∈ (Finset.range s.length).erase i,
      wZ (xor t (decide ((s.length - 1 - j) % 2 = 1))) ((s.set i v).getD j 0)
      = ∑ j ∈ (Finset.range s.length).erase i,
          wZ (xor t (decide ((s.length - 1 - j) % 2 = 1))) (s.getD j 0) := by
    apply Finset.sum_congr rfl
    intro j hj
    have hne : i ≠ j := fun hij => (Finset.mem_erase.mp hj).1 hij.symm
    rw [List.getD_eq_getElem?_getD, List.getElem?_set_ne hne, ← List.getD_eq_getElem?_getD]
  have hset : (s.set i v).getD i 0 = v := by
    rw [List.getD_eq_getElem?_getD, List.getElem?_set_eq_of_lt v hi]
    rfl
  rw [herase, hset]
  ring

/-- `valid` in terms of the left-indexed weighted sum: a sequence is valid
iff all its bytes are ASCII digits and its weighted sum vanishes mod 10. -/
theorem valid_iff_sumZ (s : List Nat) :
    decimal.valid s = true ↔ (∀ c ∈ s, 48 ≤ c ∧ c ≤ 57) ∧ sumZ false s = 0 := by
  have hbeq : ∀ hdig : ∀ c ∈ s, 48 ≤ c ∧ c ≤ 57,
      decimal.valid s = (luhnR false s.reverse % 10 == 0) := by
    intro hdig
    rw [decimal.valid, fold10_eq_some s hdig false]
  constructor
  · intro hv
    by_cases hdig : ∀ c ∈ s, 48 ≤ c ∧ c ≤ 57
    · refine ⟨hdig, ?_⟩
      rw [hbeq hdig, beq_iff_eq] at hv
      rw [← luhnR_reverse_cast, ZMod.natCast_zmod_eq_zero_iff_dvd]
      omega
    · exfalso
      push_neg at hdig
      rcases hdig with ⟨b, hb, hnb⟩
      have hnone : fold10 false s = none :=
        (fold10_none_iff false s).mpr ⟨b, hb, by omega⟩
      rw [decimal.valid, hnone] at hv
      exact Bool.false_ne_true hv
  · rintro ⟨hdig, hsum⟩
    rw [hbeq hdig, beq_iff_eq]
    rw [← luhnR_reverse_cast, ZMod.natCast_zmod_eq_zero_iff_dvd] at hsum
    omega

theorem getD_mem (s : List Nat) (i : Nat) (hi : i < s.length) : s.getD i 0 ∈ s := by
  rw [List.getD_eq_getElem s 0 hi]
  exact List.getElem_mem hi

/-- Incrementing a decimal digit byte mod 10 (9 wrapping to 0) changes its
`fold10` contribution mod 10, at either parity. -/
theorem wZ_inc_ne : ∀ c : Nat, c < 58 → 48 ≤ c → ∀ t : Bool,
    wZ t (48 + (c - 48 + 1) % 10) ≠ wZ t c := by decide

/-- **C6.** Single-error detection: for every byte sequence `s` of ASCII
decimal digits with `decimal::valid s = true` and every position `i`,
replacing the digit at position `i` by that digit incremented mod 10 (with 9
wrapping to 0) yields a sequence on which `decimal::valid` returns `false`. -/
theorem c6_single_error_detection (s : List Nat) (i : Nat)
    (hv : decimal.valid s = true) (hi : i < s.length) :
    decimal.valid (s.set i (48 + (s.getD i 0 - 48 + 1) % 10)) = false := by
  rcases (valid_iff_sumZ s).mp hv with ⟨hdig, hsum⟩
  have hcd : 48 ≤ s.getD i 0 ∧ s.getD i 0 ≤ 57 := hdig _ (getD_mem s i hi)
  cases hval : decimal.valid (s.set i (48 + (s.getD i 0 - 48 + 1) % 10)) with
  | false => rfl
  | true =>
    exfalso
    rcases (valid_iff_sumZ _).mp hval with ⟨_, hsum2⟩
    rw [sumZ_set false s i _ hi, hsum] at hsum2
    have heq : wZ (xor false (decide ((s.length - 1 - i) % 2 = 1)))
          (48 + (s.getD i 0 - 48 + 1) % 10)
        = wZ (xor false (decide ((s.length - 1 - i) % 2 = 1))) (s.getD i 0) := by
      have h2 : wZ (xor false (decide ((s.length - 1 - i) % 2 = 1)))
            (48 + (s.getD i 0 - 48 + 1) % 10)
          - wZ (xor false (decide ((s.length - 1 - i) % 2 = 1))) (s.getD i 0) = 0 := by
        rw [← hsum2]
        ring
      exact sub_eq_zero.mp h2
    exact wZ_inc_ne (s.getD i 0) (by omega) (by omega) _ heq

/-- Witness for C6: the valid sequence `"42"` with its first digit bumped. -/
theorem c6_single_error_detection_witness :
    decimal.valid [52, 50] = true ∧ 0 < [52, 50].length ∧
    decimal.valid ([52, 50].set 0 (48 + ([52, 50].getD 0 0 - 48 + 1) % 10)) = false :=
  ⟨by decide, by decide, c6_single_error_detection [52, 50] 0 (by decide) (by decide)⟩

/-- Swapping two unequal adjacent decimal digit bytes changes the weighted
sum mod 10, except for the digit pair 0 and 9. -/
theorem wZ_swap_ne : ∀ a : Nat, a < 58 → ∀ b : Nat, b < 58 → 48 ≤ a → 48 ≤ b → a ≠ b →
    ¬(a = 48 ∧ b = 57) → ¬(a = 57 ∧ b = 48) → ∀ t : Bool,
    wZ t b + wZ (!t) a ≠ wZ t a + wZ (!t) b := by
  decide

/-- **C7, counterexample.** The classical Luhn blind spot: `"091"` is valid,
its first two bytes are adjacent unequal digits (`'0' ≠ '9'`), yet swapping
them gives `"901"`, which is still valid.  So swapping two adjacent unequal
digits does not always invalidate a valid decimal sequence. -/
theorem c7_transposition_counterexample :
    decimal.valid [48, 57, 49] = true ∧
    [48, 57, 49].getD 0 0 ≠ [48, 57, 49].getD 1 0 ∧
    decimal.valid (([48, 57, 49].set 0 ([48, 57, 49].getD 1 0)).set 1
      ([48, 57, 49].getD 0 0)) = true := by
  decide

/-- **C7, amended.** Transposition detection holds for every pair of adjacent
unequal digits *except* the pair 0/9 (in either order): if `decimal::valid s =
true` and the digits at positions `i`, `i+1` are unequal and not `{'0','9'}`,
swapping them yields a sequence on which `decimal::valid` returns `false`. -/
theorem c7_transposition_amended (s : List Nat) (i : Nat)
    (hv : decimal.valid s = true) (hi : i + 1 < s.length)
    (hne : s.getD i 0 ≠ s.getD (i + 1) 0)
    (h09 : ¬(s.getD i 0 = 48 ∧ s.getD (i + 1) 0 = 57))
    (h90 : ¬(s.getD i 0 = 57 ∧ s.getD (i + 1) 0 = 48)) :
    decimal.valid ((s.set i (s.getD (i + 1) 0)).set (i + 1) (s.getD i 0)) = false := by
  rcases (valid_iff_sumZ s).mp hv with ⟨hdig, hsum⟩
  have hia : i < s.length := by omega
  have ha : 48 ≤ s.getD i 0 ∧ s.getD i 0 ≤ 57 := hdig _ (getD_mem s i hia)
  have hb : 48 ≤ s.getD (i + 1) 0 ∧ s.getD (i + 1) 0 ≤ 57 := hdig _ (getD_mem s (i + 1) hi)
  cases hval : decimal.valid ((s.set i (s.getD (i + 1) 0)).set (i + 1) (s.getD i 0)) with
  | false => rfl
  | true =>
    exfalso
    rcases (valid_iff_sumZ _).mp hval with ⟨_, hsum2⟩
    have hi1 : i + 1 < (s.set i (s.getD (i + 1) 0)).length := by
      rw [List.length_set]
      exact hi
    rw [sumZ_set false (s.set i (s.getD (i + 1) 0)) (i + 1) _ hi1,
      sumZ_set false s i _ hia, hsum, List.length_set] at hsum2
    have hgd : (s.set i (s.getD (i + 1) 0)).getD (i + 1) 0 = s.getD (i + 1) 0 := by
      rw [List.getD_eq_getElem?_getD, List.getElem?_set_ne (by omega : i ≠ i + 1),
        ← List.getD_eq_getElem?_getD]
    rw [hgd] at hsum2
    have hq : decide ((s.length - 1 - (i + 1)) % 2 = 1)
        = !decide ((s.length - 1 - i) % 2 = 1) := by
      rcases Nat.mod_two_eq_zero_or_one (s.length - 1 - i) with hp | hp
      · have h1 : (s.length - 1 - (i + 1)) % 2 = 1 := by omega
        simp [h1, hp]
      · have h1 : (s.length - 1 - (i + 1)) % 2 = 0 := by omega
        simp [h1, hp]
    rw [hq] at hsum2
    simp only [Bool.false_xor] at hsum2
    have heq : wZ (decide ((s.length - 1 - i) % 2 = 1)) (s.getD (i + 1) 0)
          + wZ (!decide ((s.length - 1 - i) % 2 = 1)) (s.getD i 0)
        = wZ (decide ((s.length - 1 - i) % 2 = 1)) (s.getD i 0)
          + wZ (!decide ((s.length - 1 - i) % 2 = 1)) (s.getD (i + 1) 0) := by
      have h2 : (wZ (decide ((s.length - 1 - i) % 2 = 1)) (s.getD (i + 1) 0)
            + wZ (!decide ((s.length - 1 - i) % 2 = 1)) (s.getD i 0))
          - (wZ (decide ((s.length - 1 - i) % 2 = 1)) (s.getD i 0)
            + wZ (!decide ((s.length - 1 - i) % 2 = 1)) (s.getD (i + 1) 0)) = 0 := by
        rw [← hsum2]
        ring
      exact sub_eq_zero.mp h2
    exact wZ_swap_ne (s.getD i 0) (by omega) (s.getD (i + 1) 0) (by omega)
      (by omega) (by omega) hne h09 h90 _ heq

/-- Witness for the amended C7: swapping `'4'` and `'2'` in the valid `"42"`. -/
theorem c7_transposition_amended_witness :
    decimal.valid [52, 50] = true ∧ 0 + 1 < [52, 50].length ∧
    [52, 50].getD 0 0 ≠ [52, 50].getD 1 0 ∧
    decimal.valid (([52, 50].set 0 ([52, 50].getD (0 + 1) 0)).set (0 + 1)
      ([52, 50].getD 0 0)) = false :=
  ⟨by decide, by decide, by decide,
    c7_transposition_amended [52, 50] 0 (by decide) (by decide) (by decide)
      (by decide) (by decide)⟩

/-! ## C1: the vectorized fold `fold10v` -/

/-- The doubling table `LUT` of `fold10v` (src/lib.rs line 96): the exact
"double, subtract 9 if over 9" value per digit, zero-padded to 16 entries. -/
def LUT16 : List Nat := [0, 2, 4, 6, 8, 1, 3, 5, 7, 9, 0, 0, 0, 0, 0, 0]

/-- `u16::rotate_left`. -/
def rotl16 (m r : Nat) : Nat := (m * 2 ^ r + m / 2 ^ (16 - r)) % 65536

/-- A byte value reinterpreted as a signed `i8`. -/
def toI8 (b : Nat) : Int := if b < 128 then (b : Int) else (b : Int) - 256

/-- One lane of the validity test
`_mm_cmpgt_epi8(high_bound, _mm_sub_epi8(ascii_digits, offset))` with
`offset = b'0' + 128` (byte 176) and `high_bound = -128 + 10` (byte 138). -/
def laneOk (b : Nat) : Bool := decide (toI8 ((b + 256 - 176) % 256) < toI8 138)

/-- One lane of `_mm_sub_epi8(ascii_digits, zero_digits)`: `b - b'0'` mod 256. -/
def laneDigit (b : Nat) : Nat := (b + 256 - 48) % 256

/-- One lane of `_mm_shuffle_epi8(lut, digits)`: zero when the index byte has
its top bit set, otherwise the table entry at the low four bits. -/
def laneShuf (d : Nat) : Nat := if 128 ≤ d then 0 else LUT16.getD (d % 16) 0

/-- Byte `j` of `_mm_set1_epi16 d`, in little-endian lane order. -/
def maskByteAt (d j : Nat) : Nat := if j % 2 = 0 then d % 256 else d / 256 % 256

/-- One byte lane of `_mm_sad_epu8(s1, s2)` where `s1 = mask & sums` and
`s2 = andnot(mask, digits)`: the absolute difference of the two selected
values (the byte complement of a mask byte `m ≤ 255` is `255 - m`). -/
def laneSel (m b : Nat) : Nat :=
  (((m &&& laneShuf (laneDigit b) : Nat) : Int) - (((255 - m) &&& laneDigit b : Nat) : Int)).natAbs

/-- The 16-byte chunk buffer `buf`: the chunk, right-padded with ASCII `'0'`. -/
def buf16 (chunk : List Nat) : List Nat := chunk ++ List.replicate (16 - chunk.length) 48

/-- The per-chunk select mask `d = mask.rotate_left((l as u32 & 1) * 8)`. -/
def chunkMask (mask l : Nat) : Nat := rotl16 mask (l % 2 * 8)

/-- `_mm_movemask_epi8` of the digit-validity compare for one chunk: bit `j`
is set iff lane `j` passed the compare. -/
def chunkDigitsMask (chunk : List Nat) : Nat :=
  ∑ j ∈ Finset.range 16, if laneOk ((buf16 chunk).getD j 0) then 2 ^ j else 0

/-- The per-chunk contribution `buf2[0] + buf2[4]`: the two `u16` halves of
the SAD (lanes 0-7 and 8-15), added with `u16` arithmetic. -/
def chunkAcc (mask : Nat) (chunk : List Nat) : Nat :=
  ((∑ j ∈ Finset.range 8, laneSel (maskByteAt (chunkMask mask chunk.length) j)
      ((buf16 chunk).getD j 0)) +
    ∑ j ∈ Finset.range 8, laneSel (maskByteAt (chunkMask mask chunk.length) (j + 8))
      ((buf16 chunk).getD (j + 8) 0)) % 65536

/-- `slice::rchunks(16)`: chunks of 16 bytes taken from the right end, in
iteration order from the last chunk backwards; only the final (leftmost)
chunk may be short.  Yields no chunks on the empty slice. -/
def rchunks16 (raw : List Nat) : List (List Nat) :=
  if _h : raw.length ≤ 16 then (if raw.isEmpty then [] else [raw])
  else raw.drop (raw.length - 16) :: rchunks16 (raw.take (raw.length - 16))
termination_by raw.length
decreasing_by
  simp only [List.length_take]
  omega

/-- `fold10v(mask, raw)` from src/lib.rs lines 92-154: per 16-byte chunk
taken from the right, check every lane is an ASCII digit, select the
doubled/plain value per lane with the (possibly rotated) mask, and
accumulate the SAD of the selections; the total is returned only if every
lane of every chunk was valid. -/
def fold10v (mask : Nat) (raw : List Nat) : Option Nat :=
  let st := (rchunks16 raw).foldl
    (fun av chunk => (av.1 + chunkAcc mask chunk, av.2 && (chunkDigitsMask chunk == 65535)))
    ((0 : Nat), true)
  if st.2 then some st.1 else none

namespace decimal

/-- `decimal::valid_vec` (src/lib.rs lines 244-249). -/
def valid_vec (ascii : List Nat) : Bool :=
  match fold10v 0xff ascii with
  | some v => v % 10 == 0
  | none => false

/-- `decimal::checksum_vec` (src/lib.rs lines 284-287). -/
def checksum_vec (ascii : List Nat) : Option Nat :=
  (fold10v 0xff00 ascii).map fun sum => 48 + (10 - sum % 10) % 10

end decimal

/-! ### Per-lane facts about the vector operations -/

/-- The signed-compare validity test accepts exactly the ASCII digits. -/
theorem laneOk_iff : ∀ b : Nat, b < 256 → (laneOk b = true ↔ 48 ≤ b ∧ b ≤ 57) := by
  decide

/-- The exact weight a vector lane contributes: the doubled table value when
selected by the mask, the plain digit value otherwise. -/
def wV (t : Bool) (c : Nat) : Nat := if t then LUT16.getD (c - 48) 0 else c - 48

theorem laneSel_digit : ∀ b : Nat, b < 58 → 48 ≤ b →
    laneSel 255 b = LUT16.getD (b - 48) 0 ∧ laneSel 0 b = b - 48 := by
  decide

/-- Padding lanes (ASCII `'0'`) contribute nothing under any mask byte. -/
theorem laneSel_pad (m : Nat) : laneSel m 48 = 0 := by
  unfold laneSel
  rw [show laneDigit 48 = 0 from rfl, show laneShuf 0 = 0 from rfl]
  simp [Nat.and_zero]

theorem laneSel_le (m b : Nat) (hm : m ≤ 255) : laneSel m b ≤ 255 := by
  unfold laneSel
  have h1 : (m &&& laneShuf (laneDigit b)) ≤ 255 := le_trans Nat.and_le_left hm
  have h2 : ((255 - m) &&& laneDigit b) ≤ 255 := le_trans Nat.and_le_left (by omega)
  omega

/-- The rotated chunk mask: rotating by 8 when the chunk length is odd swaps
the two mask bytes. -/
theorem chunkMask_eq (t : Bool) (l : Nat) :
    chunkMask (if t then 65280 else 255) l =
      if xor t (decide (l % 2 = 1)) then 65280 else 255 := by
  rcases Nat.mod_two_eq_zero_or_one l with h | h <;>
    (unfold chunkMask; rw [h]; cases t <;> decide)

/-- The byte pattern of `_mm_set1_epi16` at our two masks: byte `j` is `0xff`
exactly when the lane parity matches the mask selection. -/
theorem maskByteAt_eq (u : Bool) (j : Nat) :
    maskByteAt (if u then 65280 else 255) j =
      if u == decide (j % 2 = 1) then 255 else 0 := by
  rcases Nat.mod_two_eq_zero_or_one j with h | h <;>
    (unfold maskByteAt; rw [h]; cases u <;> decide)

/-- On a digit byte, a lane contributes exactly its scalar weight, with the
transform flag read off the mask byte. -/
theorem laneSel_wV (u : Bool) (j : Nat) (c : Nat) (h1 : 48 ≤ c) (h2 : c ≤ 57) :
    laneSel (maskByteAt (if u then 65280 else 255) j) c = wV (u == decide (j % 2 = 1)) c := by
  rw [maskByteAt_eq]
  rcases laneSel_digit c (by omega) h1 with ⟨ha, hb⟩
  cases hu : (u == decide (j % 2 = 1)) <;> simp [wV, ha, hb]

/-! ### Chunk-level correctness -/

/-- The exact-weight scalar reference for the vector fold, over a reversed
byte list. -/
def luhnV (t : Bool) : List Nat → Nat
  | [] => 0
  | c :: rest => wV t c + luhnV (!t) rest

theorem luhnV_eq_sum (l : List Nat) : ∀ t : Bool,
    luhnV t l = ∑ p ∈ Finset.range l.length, wV (xor t (decide (p % 2 = 1))) (l.getD p 0) := by
  induction l with
  | nil => intro t; simp [luhnV]
  | cons c rest ih =>
    intro t
    rw [luhnV, ih (!t), List.length_cons, Finset.sum_range_succ', add_comm]
    congr 1
    · apply Finset.sum_congr rfl
      intro p _
      rw [List.getD_cons_succ, xor_succ_parity]
    · simp [wV]

theorem luhnV_reverse (s : List Nat) (t : Bool) :
    luhnV t s.reverse =
      ∑ j ∈ Finset.range s.length,
        wV (xor t (decide ((s.length - 1 - j) % 2 = 1))) (s.getD j 0) := by
  rw [luhnV_eq_sum s.reverse t, List.length_reverse]
  have hstep : ∑ p ∈ Finset.range s.length, wV (xor t (decide (p % 2 = 1))) (s.reverse.getD p 0)
      = ∑ p ∈ Finset.range s.length,
          wV (xor t (decide ((s.length - 1 - (s.length - 1 - p)) % 2 = 1)))
            (s.getD (s.length - 1 - p) 0) := by
    apply Finset.sum_congr rfl
    intro p hp
    have hp' : p < s.length := Finset.mem_range.mp hp
    have hpp : s.length - 1 - (s.length - 1 - p) = p := by omega
    rw [getD_reverse s p hp', hpp]
  rw [hstep]
  exact Finset.sum_range_reflect
    (fun j => wV (xor t (decide ((s.length - 1 - j) % 2 = 1))) (s.getD j 0)) s.length

/-- The mask-byte selection at lane `j` of a chunk of length `l` equals the
scalar transform flag of the position `l - 1 - j` from the right. -/
theorem flag_match (t : Bool) (l j : Nat) (hj : j < l) :
    (xor t (decide (l % 2 = 1)) == decide (j % 2 = 1)) =
      xor t (decide ((l - 1 - j) % 2 = 1)) := by
  have hpar : ((l - 1 - j) % 2 = 1) ↔ (l % 2 = j % 2) := by omega
  rcases Nat.mod_two_eq_zero_or_one l with hl | hl <;>
    rcases Nat.mod_two_eq_zero_or_one j with hjp | hjp <;>
      cases t <;> simp [hl, hjp, hpar]

theorem buf16_getD_lt (chunk : List Nat) (j : Nat) (hj : j < chunk.length) :
    (buf16 chunk).getD j 0 = chunk.getD j 0 := by
  unfold buf16
  rw [List.getD_eq_getElem?_getD, List.getElem?_append, if_pos hj, ← List.getD_eq_getElem?_getD]

theorem buf16_getD_ge (chunk : List Nat) (j : Nat) (h1 : chunk.length ≤ j) (h2 : j < 16) :
    (buf16 chunk).getD j 0 = 48 := by
  unfold buf16
  rw [List.getD_eq_getElem?_getD, List.getElem?_append, if_neg (by omega),
    List.getElem?_replicate, if_pos (by omega)]
  rfl

/-- The movemask equals `0xffff` exactly when every lane passed the digit
test. -/
theorem chunkDigitsMask_eq_iff (chunk : List Nat) :
    chunkDigitsMask chunk = 65535 ↔ ∀ j < 16, laneOk ((buf16 chunk).getD j 0) = true := by
  unfold chunkDigitsMask
  have htot : ∑ j ∈ Finset.range 16, 2 ^ j = 65535 := by decide
  have hle : ∀ j ∈ Finset.range 16,
      (if laneOk ((buf16 chunk).getD j 0) then 2 ^ j else 0) ≤ 2 ^ j := by
    intro j _
    split <;> simp
  rw [← htot, Finset.sum_eq_sum_iff_of_le hle]
  constructor
  · intro h j hj
    have hj' := h j (Finset.mem_range.mpr hj)
    cases hok : laneOk ((buf16 chunk).getD j 0) with
    | true => rfl
    | false =>
      rw [if_neg (by rw [hok]; exact Bool.false_ne_true)] at hj'
      have := Nat.two_pow_pos j
      omega
  · intro h j hj
    rw [if_pos (h j (Finset.mem_range.mp hj))]

/-- Chunk validity, stated on the chunk's bytes: for chunks of at most 16
bytes (each a `u8` value), the movemask test passes iff every byte is an
ASCII digit. -/
theorem chunkValid_iff (chunk : List Nat) (hlen : chunk.length ≤ 16)
    (hbytes : ∀ b ∈ chunk, b < 256) :
    (chunkDigitsMask chunk == 65535) = true ↔ ∀ c ∈ chunk, 48 ≤ c ∧ c ≤ 57 := by
  rw [beq_iff_eq, chunkDigitsMask_eq_iff]
  constructor
  · intro h c hc
    rcases List.mem_iff_getElem.mp hc with ⟨j, hj, rfl⟩
    have hj' := h j (by omega)
    rw [buf16_getD_lt chunk j hj, List.getD_eq_getElem chunk 0 hj] at hj'
    exact (laneOk_iff _ (hbytes _ hc)).mp hj'
  · intro h j hj
    by_cases hjl : j < chunk.length
    · rw [buf16_getD_lt chunk j hjl, List.getD_eq_getElem chunk 0 hjl]
      exact (laneOk_iff _ (hbytes _ (List.getElem_mem hjl))).mpr (h _ (List.getElem_mem hjl))
    · rw [buf16_getD_ge chunk j (by omega) hj]
      decide

/-- Chunk sum correctness: on an all-digit chunk of at most 16 bytes, the
masked SAD computes exactly the `luhnV` weighted sum of the reversed chunk,
with the transform flag of the whole input's parity encoded in the mask
choice (`0xff00` for `t = true`, `0xff` for `t = false`). -/
theorem chunkAcc_eq (t : Bool) (chunk : List Nat) (hlen : chunk.length ≤ 16)
    (hdig : ∀ c ∈ chunk, 48 ≤ c ∧ c ≤ 57) :
    chunkAcc (if t then 65280 else 255) chunk = luhnV t chunk.reverse := by
  unfold chunkAcc
  rw [chunkMask_eq]
  have hmerge :
      (∑ j ∈ Finset.range 8,
        laneSel (maskByteAt (if xor t (decide (chunk.length % 2 = 1)) then 65280 else 255) j)
          ((buf16 chunk).getD j 0)) +
      (∑ j ∈ Finset.range 8,
        laneSel (maskByteAt (if xor t (decide (chunk.length % 2 = 1)) then 65280 else 255) (j + 8))
          ((buf16 chunk).getD (j + 8) 0)) =
      ∑ j ∈ Finset.range 16,
        laneSel (maskByteAt (if xor t (decide (chunk.length % 2 = 1)) then 65280 else 255) j)
          ((buf16 chunk).getD j 0) := by
    simp [Finset.sum_range_succ]
    ring
  rw [hmerge]
  have hle : ∀ j ∈ Finset.range 16,
      laneSel (maskByteAt (if xor t (decide (chunk.length % 2 = 1)) then 65280 else 255) j)
        ((buf16 chunk).getD j 0) ≤ 255 := by
    intro j _
    apply laneSel_le
    rw [maskByteAt_eq]
    split <;> omega
  have hsum_le := Finset.sum_le_card_nsmul (Finset.range 16) _ 255 hle
  rw [Finset.card_range, smul_eq_mul] at hsum_le
  rw [Nat.mod_eq_of_lt (by omega)]
  have hsub : Finset.range chunk.length ⊆ Finset.range 16 := Finset.range_subset.mpr hlen
  have hpad : ∑ j ∈ Finset.range chunk.length,
      laneSel (maskByteAt (if xor t (decide (chunk.length % 2 = 1)) then 65280 else 255) j)
        ((buf16 chunk).getD j 0)
      = ∑ j ∈ Finset.range 16,
          laneSel (maskByteAt (if xor t (decide (chunk.length % 2 = 1)) then 65280 else 255) j)
            ((buf16 chunk).getD j 0) := by
    apply Finset.sum_subset hsub
    intro j hj16 hjl
    rw [buf16_getD_ge chunk j (by simpa using hjl) (Finset.mem_range.mp hj16)]
    exact laneSel_pad _
  rw [← hpad, luhnV_reverse]
  apply Finset.sum_congr rfl
  intro j hj
  have hjl : j < chunk.length := Finset.mem_range.mp hj
  have hc := hdig _ (getD_mem chunk j hjl)
  rw [buf16_getD_lt chunk j hjl, laneSel_wV _ j _ hc.1 hc.2,
    flag_match t chunk.length j hjl]

/-- Per digit byte, the `fold10` table contribution agrees with the exact
doubled value mod 10. -/
theorem head_mod_eq : ∀ c : Nat, c < 58 → 48 ≤ c → ∀ t : Bool,
    ((c - 48) + (if t then LUT10.getD (c - 48) 0 else 0)) % 10 = wV t c % 10 := by
  decide

/-- The scalar fold's accumulated sum and the vector fold's accumulated sum
agree mod 10 on all-digit (reversed) inputs. -/
theorem luhnR_mod_luhnV (l : List Nat) : ∀ t : Bool, (∀ c ∈ l, 48 ≤ c ∧ c ≤ 57) →
    luhnR t l % 10 = luhnV t l % 10 := by
  induction l with
  | nil => intro t _; rfl
  | cons c rest ih =>
    intro t h
    have hc := h c (List.mem_cons_self c rest)
    have h1 := head_mod_eq c (by omega) (by omega) t
    have h2 := ih (!t) (fun x hx => h x (List.mem_cons_of_mem c hx))
    simp only [luhnR, luhnV]
    omega

/-! ### Assembling the chunks -/

/-- Splitting the scalar sum at a chunk boundary of the reversed input: the
flag entering the second part flips iff the first part has odd length. -/
theorem luhnR_append (l1 l2 : List Nat) : ∀ t : Bool,
    luhnR t (l1 ++ l2) =
      luhnR t l1 + luhnR (if l1.length % 2 = 1 then !t else t) l2 := by
  induction l1 with
  | nil => intro t; simp [luhnR]
  | cons c rest ih =>
    intro t
    simp only [List.cons_append, luhnR, List.length_cons, List.append_eq]
    rw [ih (!t)]
    have hflag : (if rest.length % 2 = 1 then !(!t) else !t)
        = (if (rest.length + 1) % 2 = 1 then !t else t) := by
      rcases Nat.mod_two_eq_zero_or_one rest.length with h | h
      · have h1 : (rest.length + 1) % 2 = 1 := by omega
        simp [h, h1]
      · have h1 : (rest.length + 1) % 2 = 0 := by omega
        simp [h, h1, Bool.not_not]
    rw [hflag]
    omega

/-- The chunk loop of `fold10v` from an arbitrary start state, in terms of
the loop from the initial state. -/
theorem fold10v_loop_shift (mask : Nat) (chunks : List (List Nat)) :
    ∀ (a : Nat) (v : Bool),
      chunks.foldl
        (fun av chunk => (av.1 + chunkAcc mask chunk, av.2 && (chunkDigitsMask chunk == 65535)))
        (a, v)
      = (a + (chunks.foldl (fun av chunk => (av.1 + chunkAcc mask chunk,
            av.2 && (chunkDigitsMask chunk == 65535))) ((0 : Nat), true)).1,
          v && (chunks.foldl (fun av chunk => (av.1 + chunkAcc mask chunk,
            av.2 && (chunkDigitsMask chunk == 65535))) ((0 : Nat), true)).2) := by
  induction chunks with
  | nil => intro a v; simp
  | cons c rest ih =>
    intro a v
    simp only [List.foldl_cons]
    rw [ih (a + chunkAcc mask c) (v && (chunkDigitsMask c == 65535)),
      ih (0 + chunkAcc mask c) (true && (chunkDigitsMask c == 65535))]
    simp only [Prod.mk.injEq]
    constructor
    · omega
    · simp [Bool.and_assoc]

theorem rchunks16_small (raw : List Nat) (h : raw.length ≤ 16) :
    rchunks16 raw = if raw.isEmpty then [] else [raw] := by
  rw [rchunks16]
  exact dif_pos h

theorem rchunks16_big (raw : List Nat) (h : 16 < raw.length) :
    rchunks16 raw = raw.drop (raw.length - 16) :: rchunks16 (raw.take (raw.length - 16)) := by
  rw [rchunks16]
  exact dif_neg (by omega)

theorem fold10v_nil (m : Nat) : fold10v m [] = some 0 := by
  have h1 : rchunks16 [] = [] := by
    rw [rchunks16_small [] (by simp)]
    rfl
  simp [fold10v, h1]

/-- `fold10v` on a short input is a single chunk. -/
theorem fold10v_single (mask : Nat) (raw : List Nat) (h : raw.length ≤ 16) (hne : raw ≠ []) :
    fold10v mask raw =
      if (chunkDigitsMask raw == 65535) then some (chunkAcc mask raw) else none := by
  have h1 : rchunks16 raw = [raw] := by
    rw [rchunks16_small raw h, if_neg (by simpa [List.isEmpty_iff] using hne)]
  simp only [fold10v]
  rw [h1]
  simp only [List.foldl_cons, List.foldl_nil]
  cases hcv : (chunkDigitsMask raw == 65535) <;> simp [hcv]

/-- `fold10v` on a long input: the last 16 bytes form one chunk, and the rest
recurses; both the sums and the validity flags combine. -/
theorem fold10v_split (mask : Nat) (raw : List Nat) (h16 : 16 < raw.length) :
    fold10v mask raw =
      if (chunkDigitsMask (raw.drop (raw.length - 16)) == 65535) then
        (fold10v mask (raw.take (raw.length - 16))).map
          (chunkAcc mask (raw.drop (raw.length - 16)) + ·)
      else none := by
  simp only [fold10v]
  rw [rchunks16_big raw h16, List.foldl_cons,
    fold10v_loop_shift mask (rchunks16 (raw.take (raw.length - 16)))
      (0 + chunkAcc mask (raw.drop (raw.length - 16)))
      (true && (chunkDigitsMask (raw.drop (raw.length - 16)) == 65535))]
  cases hcv : (chunkDigitsMask (raw.drop (raw.length - 16)) == 65535) with
  | false => simp [hcv]
  | true =>
    simp only [hcv, Bool.and_true, Bool.true_and]
    cases hV : ((rchunks16 (raw.take (raw.length - 16))).foldl
        (fun av chunk => (av.1 + chunkAcc mask chunk,
          av.2 && (chunkDigitsMask chunk == 65535))) ((0 : Nat), true)).2 with
    | false => simp [hV]
    | true => simp [hV, Nat.add_comm]

/-- The vector fold agrees with the scalar fold modulo 10, failures included,
on `u8` inputs: mask `0xff` corresponds to `transform_on_first = false` and
mask `0xff00` to `transform_on_first = true`.  (The raw accumulated sums may
differ — the scalar table adds 10 extra for doubled digits 5-8 — but every
public consumer reduces mod 10.) -/
theorem fold10v_eq_fold10 (t : Bool) :
    ∀ (n : Nat) (raw : List Nat), raw.length ≤ n → (∀ b ∈ raw, b < 256) →
      (fold10v (if t then 65280 else 255) raw).map (· % 10) =
        (fold10 t raw).map (· % 10) := by
  intro n
  induction n with
  | zero =>
    intro raw hlen _
    have hraw : raw = [] := List.length_eq_zero.mp (by omega)
    subst hraw
    rw [fold10v_nil]
    rfl
  | succ n ihn =>
    intro raw hlen hbytes
    by_cases hsmall : raw.length ≤ 16
    · by_cases hnil : raw = []
      · subst hnil
        rw [fold10v_nil]
        rfl
      · rw [fold10v_single _ raw hsmall hnil]
        by_cases hdig : ∀ c ∈ raw, 48 ≤ c ∧ c ≤ 57
        · have hcv : (chunkDigitsMask raw == 65535) = true :=
            (chunkValid_iff raw hsmall hbytes).mpr hdig
          rw [hcv, if_pos rfl, chunkAcc_eq t raw hsmall hdig, fold10_eq_some raw hdig t]
          simp only [Option.map_some']
          exact congrArg some (luhnR_mod_luhnV raw.reverse t
            (fun c hcm => hdig c (List.mem_reverse.mp hcm))).symm
        · have hcv : (chunkDigitsMask raw == 65535) = false := by
            cases hzz : (chunkDigitsMask raw == 65535) with
            | false => rfl
            | true => exact absurd ((chunkValid_iff raw hsmall hbytes).mp hzz) hdig
          rw [hcv, if_neg Bool.false_ne_true]
          push_neg at hdig
          rcases hdig with ⟨b, hb, hnb⟩
          rw [(fold10_none_iff t raw).mpr ⟨b, hb, by omega⟩]
    · have h16 : 16 < raw.length := by omega
      have hsplit : raw.take (raw.length - 16) ++ raw.drop (raw.length - 16) = raw :=
        List.take_append_drop _ raw
      have hlen_drop : (raw.drop (raw.length - 16)).length = 16 := by
        simp only [List.length_drop]
        omega
      have hb_take : ∀ b ∈ raw.take (raw.length - 16), b < 256 := by
        intro b hb
        apply hbytes
        rw [← hsplit]
        exact List.mem_append.mpr (Or.inl hb)
      have hb_drop : ∀ b ∈ raw.drop (raw.length - 16), b < 256 := by
        intro b hb
        apply hbytes
        rw [← hsplit]
        exact List.mem_append.mpr (Or.inr hb)
      have hlen_take : (raw.take (raw.length - 16)).length ≤ n := by
        simp only [List.length_take]
        omega
      have ih := ihn (raw.take (raw.length - 16)) hlen_take hb_take
      rw [fold10v_split _ raw h16]
      by_cases hdig_drop : ∀ c ∈ raw.drop (raw.length - 16), 48 ≤ c ∧ c ≤ 57
      · have hcv : (chunkDigitsMask (raw.drop (raw.length - 16)) == 65535) = true :=
          (chunkValid_iff _ (le_of_eq hlen_drop) hb_drop).mpr hdig_drop
        rw [hcv, if_pos rfl, chunkAcc_eq t _ (le_of_eq hlen_drop) hdig_drop]
        cases htake : fold10 t (raw.take (raw.length - 16)) with
        | none =>
          have hvec : fold10v (if t then 65280 else 255) (raw.take (raw.length - 16)) = none := by
            cases hvv : fold10v (if t then 65280 else 255) (raw.take (raw.length - 16)) with
            | none => rfl
            | some s =>
              rw [hvv, htake] at ih
              exact absurd ih (by simp)
          rw [hvec]
          rcases (fold10_none_iff t _).mp htake with ⟨b, hb, hnb⟩
          rw [(fold10_none_iff t raw).mpr
            ⟨b, by rw [← hsplit]; exact List.mem_append.mpr (Or.inl hb), hnb⟩]
          rfl
        | some L =>
          have hdig_take : ∀ c ∈ raw.take (raw.length - 16), 48 ≤ c ∧ c ≤ 57 := by
            by_contra hc
            push_neg at hc
            rcases hc with ⟨b, hb, hnb⟩
            rw [(fold10_none_iff t _).mpr ⟨b, hb, by omega⟩] at htake
            exact Option.noConfusion htake
          cases hvv : fold10v (if t then 65280 else 255) (raw.take (raw.length - 16)) with
          | none =>
            rw [hvv, htake] at ih
            exact absurd ih (by simp)
          | some S =>
            rw [hvv, htake] at ih
            simp only [Option.map_some'] at ih
            have hSL : S % 10 = L % 10 := by simpa using ih
            simp only [Option.map_some']
            have hdig_raw : ∀ c ∈ raw, 48 ≤ c ∧ c ≤ 57 := by
              intro c hc
              rw [← hsplit] at hc
              rcases List.mem_append.mp hc with hcm | hcm
              · exact hdig_take c hcm
              · exact hdig_drop c hcm
            rw [fold10_eq_some raw hdig_raw t]
            have hrev : raw.reverse =
                (raw.drop (raw.length - 16)).reverse ++ (raw.take (raw.length - 16)).reverse := by
              conv_lhs => rw [← hsplit]
              rw [List.reverse_append]
            rw [hrev, luhnR_append, List.length_reverse, hlen_drop, if_neg (by decide)]
            have hLval : some L = some (luhnR t (raw.take (raw.length - 16)).reverse) := by
              rw [← htake, fold10_eq_some _ hdig_take t]
            have hL : L = luhnR t (raw.take (raw.length - 16)).reverse := by
              simpa using hLval
            have hmodv := luhnR_mod_luhnV (raw.drop (raw.length - 16)).reverse t
              (fun c hcm => hdig_drop c (List.mem_reverse.mp hcm))
            simp only [Option.map_some']
            exact congrArg some (by omega)
      · have hcv : (chunkDigitsMask (raw.drop (raw.length - 16)) == 65535) = false := by
          cases hzz : (chunkDigitsMask (raw.drop (raw.length - 16)) == 65535) with
          | false => rfl
          | true =>
            exact absurd ((chunkValid_iff _ (le_of_eq hlen_drop) hb_drop).mp hzz) hdig_drop
        rw [hcv, if_neg Bool.false_ne_true]
        push_neg at hdig_drop
        rcases hdig_drop with ⟨b, hb, hnb⟩
        rw [(fold10_none_iff t raw).mpr
          ⟨b, by rw [← hsplit]; exact List.mem_append.mpr (Or.inr hb), by omega⟩]

/-- **C1.** For every byte sequence `s` (of `u8` values), the vectorized tier
agrees bit-for-bit with the scalar reference tier: `decimal::valid_vec s`
returns the same boolean as `decimal::valid s`, and `decimal::checksum_vec s`
returns the same `Option` as `decimal::checksum s`.  (The SSE2/SSSE3
precondition is discharged by embedding the instruction semantics.) -/
theorem c1_vector_scalar_equiv (s : List Nat) (hb : ∀ b ∈ s, b < 256) :
    decimal.valid_vec s = decimal.valid s ∧ decimal.checksum_vec s = decimal.checksum s := by
  have hf : ∀ t : Bool,
      (fold10v (if t then 65280 else 255) s).map (· % 10) = (fold10 t s).map (· % 10) :=
    fun t => fold10v_eq_fold10 t s.length s le_rfl hb
  constructor
  · have h := hf false
    rw [if_neg Bool.false_ne_true] at h
    unfold decimal.valid_vec decimal.valid
    cases h1 : fold10v 255 s with
    | none =>
      rw [h1] at h
      cases h2 : fold10 false s with
      | none => rfl
      | some w =>
        rw [h2] at h
        exact absurd h (by simp)
    | some v =>
      rw [h1] at h
      cases h2 : fold10 false s with
      | none =>
        rw [h2] at h
        exact absurd h (by simp)
      | some w =>
        rw [h2] at h
        have hvw : v % 10 = w % 10 := by simpa using h
        show (v % 10 == 0) = (w % 10 == 0)
        rw [hvw]
  · have h := hf true
    rw [if_pos rfl] at h
    unfold decimal.checksum_vec decimal.checksum
    cases h1 : fold10v 65280 s with
    | none =>
      rw [h1] at h
      cases h2 : fold10 true s with
      | none => rfl
      | some w =>
        rw [h2] at h
        exact absurd h (by simp)
    | some v =>
      rw [h1] at h
      cases h2 : fold10 true s with
      | none =>
        rw [h2] at h
        exact absurd h (by simp)
      | some w =>
        rw [h2] at h
        have hvw : v % 10 = w % 10 := by simpa using h
        simp only [Option.map_some']
        rw [hvw]

/-- Witness for C1 at the concrete input `"42"` (bytes `[52, 50]`). -/
theorem c1_vector_scalar_equiv_witness :
    (∀ b ∈ [52, 50], b < 256) ∧
    (decimal.valid_vec [52, 50] = decimal.valid [52, 50] ∧
      decimal.checksum_vec [52, 50] = decimal.checksum [52, 50]) :=
  ⟨by decide, c1_vector_scalar_equiv [52, 50] (by decide)⟩

/-- Witness for C4 at the concrete input `"a"` (byte 97, outside both
alphabets): both checksums are `None` and both validations are `false`. -/
theorem c4_fail_fast_witness :
    decimal.checksum [97] = none ∧ decimal.valid [97] = false ∧
    alphanum.checksum [97] = none ∧ alphanum.valid [97] = false :=
  ⟨(c4_fail_fast [97]).1.mpr ⟨97, by decide, by decide⟩,
    (c4_fail_fast [97]).2.1 ⟨97, by decide, by decide⟩,
    (c4_fail_fast [97]).2.2.1.mpr ⟨97, by decide, by decide, by decide⟩,
    (c4_fail_fast [97]).2.2.2 ⟨97, by decide, by decide, by decide⟩⟩
